import Mathlib

/-!
Verification of the pipeline flow reconstruction and tag classification
pipeline (hezop-analyzer).

The definitions below are a shallow embedding of the Python sources:

* `build_flow_by_following_sequence` from `s2_DS.py` (the Flow Builder),
* `similarity` / difflib's `SequenceMatcher.ratio` used by `s5_classify_tags.py`,
* `normalize_tag` from `s4_normalize_tags.py` and from the chat front end,
* `find_best_match` and `classify_tags_preserve_flow` from `s5_classify_tags.py`.

Python `while` loops are embedded with an explicit fuel argument; the fuel
supplied by the top-level wrappers is proven sufficient.
-/

namespace Hezop

/-- One directed connection record `{from, to}` of a pipeline
(`connections` entries in `s2_DS.py`).  `from` is a Lean keyword, so the
field is called `from_`. -/
structure Segment where
  from_ : String
  to_ : String
deriving DecidableEq, Repr

/-- Scan of the tail-extension `for` loop in `build_flow_by_following_sequence`
(`s2_DS.py` lines 93-104): first unused connection whose `from` equals the
last node (append its `to`), else whose `to` equals the last node (append its
`from`).  The list carries the original indices (Python `enumerate`). -/
def findTail : List (Nat × Segment) → List Nat → String → Option (Nat × String)
  | [], _, _ => none
  | (i, c) :: rest, used, last =>
    if i ∈ used then findTail rest used last
    else if c.from_ = last then some (i, c.to_)
    else if c.to_ = last then some (i, c.from_)
    else findTail rest used last

/-- Scan of the head-extension `for` loop (`s2_DS.py` lines 109-120): first
unused connection whose `to` equals the first node (prepend its `from`), else
whose `from` equals the first node (prepend its `to`). -/
def findHead : List (Nat × Segment) → List Nat → String → Option (Nat × String)
  | [], _, _ => none
  | (i, c) :: rest, used, first =>
    if i ∈ used then findHead rest used first
    else if c.to_ = first then some (i, c.from_)
    else if c.from_ = first then some (i, c.to_)
    else findHead rest used first

/-- The disconnected-segment fallback (`s2_DS.py` lines 124-131): walk all
connections in order; for each unused one append its `from` and then its `to`
to the flow, each only when not already a member, and mark it used. -/
def fallbackAbsorb : List (Nat × Segment) → List Nat → List String → List String
  | [], _, flow => flow
  | (i, c) :: rest, used, flow =>
    if i ∈ used then fallbackAbsorb rest used flow
    else
      let flow1 := if c.from_ ∈ flow then flow else flow ++ [c.from_]
      let flow2 := if c.to_ ∈ flow1 then flow1 else flow1 ++ [c.to_]
      fallbackAbsorb rest (used ++ [i]) flow2

/-- State of the stitching `while` loop: the flow built so far and the list
of used connection indices. -/
structure StitchState where
  flow : List String
  used : List Nat
deriving DecidableEq, Repr

/-- One iteration of the `while` loop body (`s2_DS.py` lines 89-132):
try a tail extension, then a head extension; if both fail run the fallback
and `break` (signalled by returning the final flow in `Sum.inr`). -/
def stitchStep (econns : List (Nat × Segment)) (s : StitchState) :
    StitchState ⊕ List String :=
  match findTail econns s.used (s.flow.getLastD "") with
  | some (i, node) => Sum.inl ⟨s.flow ++ [node], s.used ++ [i]⟩
  | none =>
    match findHead econns s.used (s.flow.headD "") with
    | some (i, node) => Sum.inl ⟨node :: s.flow, s.used ++ [i]⟩
    | none => Sum.inr (fallbackAbsorb econns s.used s.flow)

/-- The stitching `while len(used_connections) < len(connections)` loop,
with explicit fuel.  The wrapper below supplies fuel `connections.length`,
which `buildFlow_fuel_sufficient` proves sufficient. -/
def stitchLoop : Nat → List (Nat × Segment) → StitchState → List String
  | 0, _, s => s.flow
  | fuel + 1, econns, s =>
    if econns.length ≤ s.used.length then s.flow
    else
      match stitchStep econns s with
      | Sum.inl s' => stitchLoop fuel econns s'
      | Sum.inr flow => flow

/-- `build_flow_by_following_sequence` (`s2_DS.py` lines 74-134) with an
explicit fuel parameter for the `while` loop. -/
def build_flow_fuel (fuel : Nat) (connections : List Segment) : List String :=
  match connections with
  | [] => []
  | [c] => [c.from_, c.to_]
  | c :: _ => stitchLoop fuel connections.enum ⟨[c.from_, c.to_], [0]⟩

/-- `build_flow_by_following_sequence` (`s2_DS.py` lines 74-134): empty input
gives `[]`, a single connection gives `[from, to]`, otherwise the flow is
seeded with the first connection's `[from, to]` (index 0 marked used) and the
stitching loop runs until every connection is used or the fallback fires. -/
def build_flow_by_following_sequence (connections : List Segment) : List String :=
  build_flow_fuel connections.length connections

lemma headD_mem {l : List String} (h : l ≠ []) (d : String) : l.headD d ∈ l := by
  cases l with
  | nil => exact absurd rfl h
  | cons a t => simp [List.headD]

lemma getLastD_mem {l : List String} (h : l ≠ []) (d : String) : l.getLastD d ∈ l := by
  rw [List.getLastD_eq_getLast?, List.getLast?_eq_getLast l h]
  exact List.getLast_mem h

lemma findTail_spec {econns : List (Nat × Segment)} {used : List Nat} {last : String}
    {i : Nat} {node : String} (h : findTail econns used last = some (i, node)) :
    ∃ c : Segment, (i, c) ∈ econns ∧ i ∉ used ∧
      ((c.from_ = last ∧ node = c.to_) ∨ (c.to_ = last ∧ node = c.from_)) := by
  induction econns with
  | nil => simp [findTail] at h
  | cons p rest ih =>
    obtain ⟨j, c⟩ := p
    by_cases hj : j ∈ used
    · rw [findTail, if_pos hj] at h
      obtain ⟨c', hmem, hnu, hcase⟩ := ih h
      exact ⟨c', List.mem_cons_of_mem _ hmem, hnu, hcase⟩
    · rw [findTail, if_neg hj] at h
      by_cases hf : c.from_ = last
      · rw [if_pos hf] at h
        obtain ⟨rfl, rfl⟩ : j = i ∧ c.to_ = node := by
          simpa using h
        exact ⟨c, List.mem_cons_self _ _, hj, Or.inl ⟨hf, rfl⟩⟩
      · rw [if_neg hf] at h
        by_cases ht : c.to_ = last
        · rw [if_pos ht] at h
          obtain ⟨rfl, rfl⟩ : j = i ∧ c.from_ = node := by
            simpa using h
          exact ⟨c, List.mem_cons_self _ _, hj, Or.inr ⟨ht, rfl⟩⟩
        · rw [if_neg ht] at h
          obtain ⟨c', hmem, hnu, hcase⟩ := ih h
          exact ⟨c', List.mem_cons_of_mem _ hmem, hnu, hcase⟩

lemma findHead_spec {econns : List (Nat × Segment)} {used : List Nat} {first : String}
    {i : Nat} {node : String} (h : findHead econns used first = some (i, node)) :
    ∃ c : Segment, (i, c) ∈ econns ∧ i ∉ used ∧
      ((c.to_ = first ∧ node = c.from_) ∨ (c.from_ = first ∧ node = c.to_)) := by
  induction econns with
  | nil => simp [findHead] at h
  | cons p rest ih =>
    obtain ⟨j, c⟩ := p
    by_cases hj : j ∈ used
    · rw [findHead, if_pos hj] at h
      obtain ⟨c', hmem, hnu, hcase⟩ := ih h
      exact ⟨c', List.mem_cons_of_mem _ hmem, hnu, hcase⟩
    · rw [findHead, if_neg hj] at h
      by_cases ht : c.to_ = first
      · rw [if_pos ht] at h
        obtain ⟨rfl, rfl⟩ : j = i ∧ c.from_ = node := by
          simpa using h
        exact ⟨c, List.mem_cons_self _ _, hj, Or.inl ⟨ht, rfl⟩⟩
      · rw [if_neg ht] at h
        by_cases hf : c.from_ = first
        · rw [if_pos hf] at h
          obtain ⟨rfl, rfl⟩ : j = i ∧ c.to_ = node := by
            simpa using h
          exact ⟨c, List.mem_cons_self _ _, hj, Or.inr ⟨hf, rfl⟩⟩
        · rw [if_neg hf] at h
          obtain ⟨c', hmem, hnu, hcase⟩ := ih h
          exact ⟨c', List.mem_cons_of_mem _ hmem, hnu, hcase⟩

lemma mem_if_extend {x y : String} {l : List String} (hx : x ∈ l) :
    x ∈ (if y ∈ l then l else l ++ [y]) := by
  split <;> simp [hx]

lemma self_mem_if_extend {y : String} {l : List String} :
    y ∈ (if y ∈ l then l else l ++ [y]) := by
  split <;> simp_all

lemma mem_fallbackAbsorb_of_mem {x : String} :
    ∀ (econns : List (Nat × Segment)) (used : List Nat) (flow : List String),
      x ∈ flow → x ∈ fallbackAbsorb econns used flow := by
  intro econns
  induction econns with
  | nil => intro used flow hx; simpa [fallbackAbsorb] using hx
  | cons p rest ih =>
    intro used flow hx
    obtain ⟨j, c⟩ := p
    by_cases hj : j ∈ used
    · rw [fallbackAbsorb, if_pos hj]; exact ih used flow hx
    · rw [fallbackAbsorb, if_neg hj]
      exact ih _ _ (mem_if_extend (mem_if_extend hx))

lemma fallbackAbsorb_covers {i : Nat} {c : Segment} :
    ∀ (econns : List (Nat × Segment)) (used : List Nat) (flow : List String),
      (econns.map Prod.fst).Nodup → (i, c) ∈ econns → i ∉ used →
      c.from_ ∈ fallbackAbsorb econns used flow ∧ c.to_ ∈ fallbackAbsorb econns used flow := by
  intro econns
  induction econns with
  | nil => intro used flow _ hmem _; simp at hmem
  | cons p rest ih =>
    intro used flow hnd hmem hnu
    obtain ⟨j, d⟩ := p
    have hnd' : (rest.map Prod.fst).Nodup := (List.nodup_cons.mp (by simpa using hnd)).2
    have hjrest : j ∉ rest.map Prod.fst := (List.nodup_cons.mp (by simpa using hnd)).1
    rcases List.mem_cons.mp hmem with heq | hrest
    · injection heq with h1 h2
      subst h1; subst h2
      rw [fallbackAbsorb, if_neg hnu]
      exact ⟨mem_fallbackAbsorb_of_mem rest _ _ (mem_if_extend self_mem_if_extend),
             mem_fallbackAbsorb_of_mem rest _ _ self_mem_if_extend⟩
    · have hij : i ≠ j := by
        intro h
        exact hjrest (h ▸ List.mem_map_of_mem Prod.fst hrest)
      by_cases hj : j ∈ used
      · rw [fallbackAbsorb, if_pos hj]
        exact ih used flow hnd' hrest hnu
      · rw [fallbackAbsorb, if_neg hj]
        apply ih _ _ hnd' hrest
        simp [List.mem_append, hnu, hij]

lemma stitchStep_used_succ {econns : List (Nat × Segment)} {s s' : StitchState}
    (h : stitchStep econns s = Sum.inl s') :
    s'.used.length = s.used.length + 1 := by
  unfold stitchStep at h
  cases hft : findTail econns s.used (s.flow.getLastD "") with
  | some v =>
    obtain ⟨i, node⟩ := v
    rw [hft] at h
    cases h
    simp
  | none =>
    rw [hft] at h
    cases hfh : findHead econns s.used (s.flow.headD "") with
    | some v =>
      obtain ⟨i, node⟩ := v
      rw [hfh] at h
      cases h
      simp
    | none => rw [hfh] at h; cases h

lemma stitchLoop_stop {fuel : Nat} {econns : List (Nat × Segment)} {s : StitchState}
    (h : econns.length ≤ s.used.length) : stitchLoop fuel econns s = s.flow := by
  cases fuel with
  | zero => rfl
  | succ n => rw [stitchLoop, if_pos h]

lemma stitchLoop_fuel_eq :
    ∀ (f₁ f₂ : Nat) (econns : List (Nat × Segment)) (s : StitchState),
      econns.length - s.used.length ≤ f₁ → econns.length - s.used.length ≤ f₂ →
      stitchLoop f₁ econns s = stitchLoop f₂ econns s := by
  intro f₁
  induction f₁ with
  | zero =>
    intro f₂ econns s h₁ h₂
    have hle : econns.length ≤ s.used.length := by omega
    rw [stitchLoop_stop hle, stitchLoop_stop hle]
  | succ n ih =>
    intro f₂ econns s h₁ h₂
    by_cases hle : econns.length ≤ s.used.length
    · rw [stitchLoop_stop hle, stitchLoop_stop hle]
    · have hlt : s.used.length < econns.length := by omega
      cases f₂ with
      | zero => omega
      | succ m =>
        rw [stitchLoop, if_neg hle, stitchLoop, if_neg hle]
        cases hstep : stitchStep econns s with
        | inl s' =>
          have hsucc := stitchStep_used_succ hstep
          exact ih m econns s' (by omega) (by omega)
        | inr flow => rfl

lemma mem_of_nodup_lt_length {used : List Nat} {n : Nat} (hnd : used.Nodup)
    (hbound : ∀ i ∈ used, i < n) (hlen : n ≤ used.length) {i : Nat} (hi : i < n) :
    i ∈ used := by
  have hsub : used.toFinset ⊆ Finset.range n := by
    intro x hx
    exact Finset.mem_range.mpr (hbound x (List.mem_toFinset.mp hx))
  have hcard : (Finset.range n).card ≤ used.toFinset.card := by
    rw [Finset.card_range, List.toFinset_card_of_nodup hnd]
    exact hlen
  have heq := Finset.eq_of_subset_of_card_le hsub hcard
  have : i ∈ used.toFinset := by
    rw [heq]
    exact Finset.mem_range.mpr hi
  exact List.mem_toFinset.mp this

lemma enum_functional {α : Type} {l : List α} {i : Nat} {c c' : α}
    (h : (i, c) ∈ l.enum) (h' : (i, c') ∈ l.enum) : c = c' := by
  rw [List.mem_enum_iff_getElem?] at h h'
  simp only at h h'
  rw [h] at h'
  exact Option.some_inj.mp h'

lemma stitchStep_inr_spec {econns : List (Nat × Segment)} {s : StitchState}
    {flow : List String} (h : stitchStep econns s = Sum.inr flow) :
    flow = fallbackAbsorb econns s.used s.flow := by
  unfold stitchStep at h
  cases hft : findTail econns s.used (s.flow.getLastD "") with
  | some v => obtain ⟨i, node⟩ := v; rw [hft] at h; cases h
  | none =>
    rw [hft] at h
    cases hfh : findHead econns s.used (s.flow.headD "") with
    | some v => obtain ⟨i, node⟩ := v; rw [hfh] at h; cases h
    | none =>
      rw [hfh] at h
      cases h
      rfl

lemma stitchStep_inl_spec {econns : List (Nat × Segment)} {s s' : StitchState}
    (hflow : s.flow ≠ []) (h : stitchStep econns s = Sum.inl s') :
    ∃ (i₀ : Nat) (c₀ : Segment), (i₀, c₀) ∈ econns ∧ i₀ ∉ s.used ∧
      s'.used = s.used ++ [i₀] ∧ (∀ x ∈ s.flow, x ∈ s'.flow) ∧
      c₀.from_ ∈ s'.flow ∧ c₀.to_ ∈ s'.flow ∧ s'.flow ≠ [] := by
  unfold stitchStep at h
  cases hft : findTail econns s.used (s.flow.getLastD "") with
  | some v =>
    obtain ⟨i, node⟩ := v
    rw [hft] at h
    cases h
    obtain ⟨c₀, hmem, hnu, hcase⟩ := findTail_spec hft
    refine ⟨i, c₀, hmem, hnu, rfl, ?_, ?_, ?_, ?_⟩
    · intro x hx; simp [hx]
    · rcases hcase with ⟨hf, _⟩ | ⟨_, hn⟩
      · exact List.mem_append_left _ (hf ▸ getLastD_mem hflow "")
      · simp [← hn]
    · rcases hcase with ⟨_, hn⟩ | ⟨ht, _⟩
      · simp [← hn]
      · exact List.mem_append_left _ (ht ▸ getLastD_mem hflow "")
    · simp
  | none =>
    rw [hft] at h
    cases hfh : findHead econns s.used (s.flow.headD "") with
    | some v =>
      obtain ⟨i, node⟩ := v
      rw [hfh] at h
      cases h
      obtain ⟨c₀, hmem, hnu, hcase⟩ := findHead_spec hfh
      refine ⟨i, c₀, hmem, hnu, rfl, ?_, ?_, ?_, ?_⟩
      · intro x hx; simp [hx]
      · rcases hcase with ⟨_, hn⟩ | ⟨hf, _⟩
        · simp [← hn]
        · exact List.mem_cons_of_mem _ (hf ▸ headD_mem hflow "")
      · rcases hcase with ⟨ht, _⟩ | ⟨_, hn⟩
        · exact List.mem_cons_of_mem _ (ht ▸ headD_mem hflow "")
        · simp [← hn]
      · simp
    | none =>
      rw [hfh] at h
      cases h

lemma stitchLoop_covers :
    ∀ (fuel : Nat) (conns : List Segment) (s : StitchState),
      conns.length - s.used.length ≤ fuel →
      s.flow ≠ [] →
      s.used.Nodup →
      (∀ i ∈ s.used, i < conns.length) →
      (∀ i ∈ s.used, ∀ c : Segment, (i, c) ∈ conns.enum →
        c.from_ ∈ s.flow ∧ c.to_ ∈ s.flow) →
      ∀ (i : Nat) (c : Segment), (i, c) ∈ conns.enum →
        c.from_ ∈ stitchLoop fuel conns.enum s ∧ c.to_ ∈ stitchLoop fuel conns.enum s := by
  intro fuel
  induction fuel with
  | zero =>
    intro conns s hfuel hflow hnd hbound hinv i c hmem
    have hlen : conns.length ≤ s.used.length := by omega
    have hi : i < conns.length := by
      have := List.mem_enum_iff_getElem?.mp hmem
      have := List.getElem?_eq_some.mp this
      exact this.1
    have hiu : i ∈ s.used := mem_of_nodup_lt_length hnd hbound hlen hi
    simpa [stitchLoop] using hinv i hiu c hmem
  | succ n ih =>
    intro conns s hfuel hflow hnd hbound hinv i c hmem
    by_cases hle : conns.enum.length ≤ s.used.length
    · rw [stitchLoop_stop hle]
      have hlen : conns.length ≤ s.used.length := by
        rwa [List.enum_length] at hle
      have hi : i < conns.length := by
        have := List.mem_enum_iff_getElem?.mp hmem
        have := List.getElem?_eq_some.mp this
        exact this.1
      exact hinv i (mem_of_nodup_lt_length hnd hbound hlen hi) c hmem
    · rw [stitchLoop, if_neg hle]
      have hlt : s.used.length < conns.length := by
        rw [List.enum_length] at hle
        omega
      cases hstep : stitchStep conns.enum s with
      | inl s' =>
        obtain ⟨i₀, c₀, hmem₀, hnu₀, hused', hmono, hfrom₀, hto₀, hflow'⟩ :=
          stitchStep_inl_spec hflow hstep
        have hi₀ : i₀ < conns.length := by
          have := List.mem_enum_iff_getElem?.mp hmem₀
          have := List.getElem?_eq_some.mp this
          exact this.1
        apply ih conns s'
        · rw [hused']
          simp only [List.length_append, List.length_singleton]
          omega
        · exact hflow'
        · rw [hused']
          rw [List.nodup_append]
          exact ⟨hnd, List.nodup_singleton _, by simpa using hnu₀⟩
        · intro j hj
          rw [hused'] at hj
          rcases List.mem_append.mp hj with hj | hj
          · exact hbound j hj
          · simp at hj
            omega
        · intro j hj c' hc'
          rw [hused'] at hj
          rcases List.mem_append.mp hj with hj | hj
          · obtain ⟨h1, h2⟩ := hinv j hj c' hc'
            exact ⟨hmono _ h1, hmono _ h2⟩
          · simp at hj
            subst hj
            have : c' = c₀ := enum_functional hc' hmem₀
            subst this
            exact ⟨hfrom₀, hto₀⟩
        · exact hmem
      | inr flow =>
        rw [stitchStep_inr_spec hstep]
        by_cases hiu : i ∈ s.used
        · obtain ⟨h1, h2⟩ := hinv i hiu c hmem
          exact ⟨mem_fallbackAbsorb_of_mem _ _ _ h1, mem_fallbackAbsorb_of_mem _ _ _ h2⟩
        · have hndenum : (conns.enum.map Prod.fst).Nodup := by
            rw [List.enum_map_fst]
            exact List.nodup_range _
          exact fallbackAbsorb_covers conns.enum s.used s.flow hndenum hmem hiu

/-- C1: `build_flow_by_following_sequence` implements the greedy sequential
stitching algorithm: the empty segment list yields the empty sequence, a
single segment `{from, to}` yields `[from, to]`, the general case seeds the
sequence with the first segment's `[from, to]` (marking it used) and runs the
tail-then-head greedy extension loop, and on
`[{from:"B",to:"C"},{from:"A",to:"B"}]` the deterministic rule produces the
head-extension-consistent result `["A","B","C"]`. -/
theorem buildFlow_greedy_stitching :
    build_flow_by_following_sequence [] = [] ∧
    (∀ c : Segment, build_flow_by_following_sequence [c] = [c.from_, c.to_]) ∧
    (∀ (c c' : Segment) (rest : List Segment),
      build_flow_by_following_sequence (c :: c' :: rest) =
        stitchLoop (c :: c' :: rest).length (c :: c' :: rest).enum
          ⟨[c.from_, c.to_], [0]⟩) ∧
    build_flow_by_following_sequence [⟨"B", "C"⟩, ⟨"A", "B"⟩] = ["A", "B", "C"] :=
  ⟨rfl, fun _ => rfl, fun _ _ _ => rfl, by decide⟩

/-- C3: when an iteration of the stitching loop finds neither a tail nor a
head extension, the loop's value is exactly the one-pass fallback
`fallbackAbsorb` (so the fallback fires once and the loop terminates with no
further extension attempt); the fallback keeps every node already in the
sequence and absorbs both endpoints of every remaining unused segment. -/
theorem fallback_fires_once_and_terminates
    (econns : List (Nat × Segment)) (s : StitchState) (fuel : Nat)
    (htail : findTail econns s.used (s.flow.getLastD "") = none)
    (hhead : findHead econns s.used (s.flow.headD "") = none)
    (hleft : s.used.length < econns.length) (hfuel : 1 ≤ fuel) :
    stitchLoop fuel econns s = fallbackAbsorb econns s.used s.flow ∧
    (∀ x ∈ s.flow, x ∈ stitchLoop fuel econns s) ∧
    (∀ (i : Nat) (c : Segment), (econns.map Prod.fst).Nodup →
      (i, c) ∈ econns → i ∉ s.used →
      c.from_ ∈ stitchLoop fuel econns s ∧ c.to_ ∈ stitchLoop fuel econns s) := by
  cases fuel with
  | zero => omega
  | succ n =>
    have hloop : stitchLoop (n + 1) econns s = fallbackAbsorb econns s.used s.flow := by
      rw [stitchLoop, if_neg (by omega)]
      have hstep : stitchStep econns s = Sum.inr (fallbackAbsorb econns s.used s.flow) := by
        unfold stitchStep
        rw [htail, hhead]
      rw [hstep]
    refine ⟨hloop, ?_, ?_⟩
    · intro x hx
      rw [hloop]
      exact mem_fallbackAbsorb_of_mem _ _ _ hx
    · intro i c hnd hmem hnu
      rw [hloop]
      exact fallbackAbsorb_covers econns s.used s.flow hnd hmem hnu

theorem fallback_fires_once_and_terminates_witness :
    findTail [(0, (⟨"A", "B"⟩ : Segment)), (1, ⟨"C", "D"⟩)] [0]
        ((["A", "B"] : List String).getLastD "") = none ∧
    findHead [(0, (⟨"A", "B"⟩ : Segment)), (1, ⟨"C", "D"⟩)] [0]
        ((["A", "B"] : List String).headD "") = none ∧
    stitchLoop 1 [(0, (⟨"A", "B"⟩ : Segment)), (1, ⟨"C", "D"⟩)] ⟨["A", "B"], [0]⟩ =
      fallbackAbsorb [(0, (⟨"A", "B"⟩ : Segment)), (1, ⟨"C", "D"⟩)] [0] ["A", "B"] :=
  ⟨by decide, by decide,
    (fallback_fires_once_and_terminates
      [(0, (⟨"A", "B"⟩ : Segment)), (1, ⟨"C", "D"⟩)] ⟨["A", "B"], [0]⟩ 1
      (by decide) (by decide) (by decide) (by decide)).1⟩

/-- C8: the stitching loop of `build_flow_by_following_sequence` terminates on
every finite segment list: the fuel `connections.length` supplied by the
wrapper is sufficient (adding any extra fuel does not change the result), and
every loop iteration that continues marks exactly one previously unused
segment as used. -/
theorem buildFlow_terminates :
    (∀ (conns : List Segment) (k : Nat),
      build_flow_fuel (conns.length + k) conns = build_flow_by_following_sequence conns) ∧
    (∀ (econns : List (Nat × Segment)) (s : StitchState),
      Sum.elim (fun s' => s'.used.length = s.used.length + 1) (fun _ => True)
        (stitchStep econns s)) := by
  constructor
  · intro conns k
    match conns with
    | [] => rfl
    | [c] => rfl
    | c :: c' :: rest =>
      show stitchLoop _ _ _ = stitchLoop _ _ _
      apply stitchLoop_fuel_eq <;>
        · rw [List.enum_length]
          simp only [List.length_cons]
          omega
  · intro econns s
    cases hstep : stitchStep econns s with
    | inl s' =>
      simpa using stitchStep_used_succ hstep
    | inr flow => simp

/-- C10: for every non-empty segment list, every `from` endpoint and every
`to` endpoint of every input segment is a member of the sequence returned by
`build_flow_by_following_sequence`. -/
theorem buildFlow_keeps_endpoints (conns : List Segment) (h : conns ≠ []) :
    ∀ c ∈ conns, c.from_ ∈ build_flow_by_following_sequence conns ∧
      c.to_ ∈ build_flow_by_following_sequence conns := by
  match conns with
  | [] => exact absurd rfl h
  | [c₀] =>
    intro c hc
    simp only [List.mem_singleton] at hc
    subst hc
    simp [build_flow_by_following_sequence, build_flow_fuel]
  | c₀ :: c₁ :: rest =>
    intro c hc
    obtain ⟨i, hi, hgc⟩ := List.mem_iff_getElem.mp hc
    have hmem : (i, c) ∈ (c₀ :: c₁ :: rest).enum := by
      rw [List.mem_enum_iff_getElem?]
      exact List.getElem?_eq_some.mpr ⟨hi, hgc⟩
    show c.from_ ∈ stitchLoop _ _ _ ∧ c.to_ ∈ stitchLoop _ _ _
    apply stitchLoop_covers (c₀ :: c₁ :: rest).length (c₀ :: c₁ :: rest)
      ⟨[c₀.from_, c₀.to_], [0]⟩
    · simp
    · simp
    · simp
    · intro j hj
      simp only [List.mem_singleton] at hj
      subst hj
      simp
    · intro j hj c' hc'
      simp only [List.mem_singleton] at hj
      subst hj
      have hc₀ : ((0 : Nat), c₀) ∈ (c₀ :: c₁ :: rest).enum := by
        rw [List.mem_enum_iff_getElem?]
        simp
      have : c' = c₀ := enum_functional hc' hc₀
      subst this
      simp
    · exact hmem

theorem buildFlow_keeps_endpoints_witness :
    ([(⟨"A", "B"⟩ : Segment), ⟨"C", "D"⟩] ≠ []) ∧
    ((⟨"C", "D"⟩ : Segment) ∈ [(⟨"A", "B"⟩ : Segment), ⟨"C", "D"⟩]) ∧
    ((⟨"C", "D"⟩ : Segment).from_ ∈
        build_flow_by_following_sequence [⟨"A", "B"⟩, ⟨"C", "D"⟩] ∧
      (⟨"C", "D"⟩ : Segment).to_ ∈
        build_flow_by_following_sequence [⟨"A", "B"⟩, ⟨"C", "D"⟩]) :=
  ⟨by decide, by decide,
    buildFlow_keeps_endpoints [⟨"A", "B"⟩, ⟨"C", "D"⟩] (by decide) _ (by decide)⟩

/-! ### Text Normalizer (`s4_normalize_tags.py` and the chat front end) -/

/-- The character class of the regex `[^a-zA-Z0-9]` used by `normalize_tag`:
`true` exactly on ASCII letters and digits. -/
def isAsciiAlnum (c : Char) : Bool :=
  ('a' ≤ c && c ≤ 'z') || ('A' ≤ c && c ≤ 'Z') || ('0' ≤ c && c ≤ '9')

/-- Python `str.lower` restricted to ASCII (after the regex only ASCII
letters and digits remain, on which `str.lower` is the ASCII shift). -/
def pyLower (c : Char) : Char :=
  if 'A' ≤ c && c ≤ 'Z' then Char.ofNat (c.toNat + 32) else c

/-- `re.sub(r'[^a-zA-Z0-9]', '', tag).lower()` on the character list. -/
def normalizeList (l : List Char) : List Char :=
  (l.filter isAsciiAlnum).map pyLower

/-- The string body shared by both `normalize_tag` copies: strip every
character that is not an ASCII letter or digit, then lowercase. -/
def normalizeCore (s : String) : String :=
  String.mk (normalizeList s.data)

/-- `normalize_tag` from `s4_normalize_tags.py` lines 5-9.  A value that is
not a string (`Sum.inl`) is returned unchanged (`if not isinstance(tag, str):
return tag`); a string is normalized. -/
def normalize_tag {α : Type} : α ⊕ String → α ⊕ String
  | Sum.inl x => Sum.inl x
  | Sum.inr s => Sum.inr (normalizeCore s)

/-- `normalize_tag` from the chat front end (`main.py` lines 51-54).  A value
that is not a string yields the empty string (`return ""`); a string is
normalized. -/
def normalize_tag_chat {α : Type} : α ⊕ String → String
  | Sum.inl _ => ""
  | Sum.inr s => normalizeCore s

lemma char_le_iff {a b : Char} : a ≤ b ↔ a.toNat ≤ b.toNat := by
  rw [Char.le_def, UInt32.le_def, BitVec.le_def]
  exact Iff.rfl

lemma toNat_charOfNat {n : Nat} (h : n < 55296) : (Char.ofNat n).toNat = n := by
  have hv : n < 55296 ∨ 57343 < n ∧ n < 1114112 := Or.inl h
  simp [Char.ofNat, dif_pos hv, Char.ofNatAux, Char.toNat, UInt32.toNat,
    BitVec.toNat_ofNatLt]

lemma isAsciiAlnum_iff {c : Char} :
    isAsciiAlnum c = true ↔
      (97 ≤ c.toNat ∧ c.toNat ≤ 122) ∨ (65 ≤ c.toNat ∧ c.toNat ≤ 90) ∨
      (48 ≤ c.toNat ∧ c.toNat ≤ 57) := by
  unfold isAsciiAlnum
  simp only [Bool.or_eq_true, Bool.and_eq_true, decide_eq_true_eq, char_le_iff]
  rw [(by decide : ('a').toNat = 97), (by decide : ('z').toNat = 122),
    (by decide : ('A').toNat = 65), (by decide : ('Z').toNat = 90),
    (by decide : ('0').toNat = 48), (by decide : ('9').toNat = 57)]
  omega

lemma pyLower_of_upper {c : Char} (h : 65 ≤ c.toNat ∧ c.toNat ≤ 90) :
    (pyLower c).toNat = c.toNat + 32 := by
  unfold pyLower
  rw [if_pos]
  · exact toNat_charOfNat (by omega)
  · simp only [Bool.and_eq_true, decide_eq_true_eq, char_le_iff]
    exact ⟨h.1, h.2⟩

lemma pyLower_of_not_upper {c : Char} (h : ¬(65 ≤ c.toNat ∧ c.toNat ≤ 90)) :
    pyLower c = c := by
  unfold pyLower
  rw [if_neg]
  simp only [Bool.and_eq_true, decide_eq_true_eq, char_le_iff]
  rw [(by decide : ('A').toNat = 65), (by decide : ('Z').toNat = 90)]
  omega

lemma pyLower_idem (c : Char) : pyLower (pyLower c) = pyLower c := by
  by_cases h : 65 ≤ c.toNat ∧ c.toNat ≤ 90
  · have h1 := pyLower_of_upper h
    exact pyLower_of_not_upper (by omega)
  · rw [pyLower_of_not_upper h, pyLower_of_not_upper h]

lemma isAsciiAlnum_pyLower (c : Char) : isAsciiAlnum (pyLower c) = isAsciiAlnum c := by
  by_cases h : 65 ≤ c.toNat ∧ c.toNat ≤ 90
  · have h1 := pyLower_of_upper h
    have hc : isAsciiAlnum c = true := isAsciiAlnum_iff.mpr (Or.inr (Or.inl h))
    have hp : isAsciiAlnum (pyLower c) = true :=
      isAsciiAlnum_iff.mpr (Or.inl (by omega))
    rw [hc, hp]
  · rw [pyLower_of_not_upper h]

lemma normalizeList_idem (l : List Char) : normalizeList (normalizeList l) = normalizeList l := by
  induction l with
  | nil => rfl
  | cons c t ih =>
    by_cases hc : isAsciiAlnum c = true
    · have h1 : normalizeList (c :: t) = pyLower c :: normalizeList t := by
        simp [normalizeList, List.filter_cons, hc]
      rw [h1]
      have hc' : isAsciiAlnum (pyLower c) = true := by
        rw [isAsciiAlnum_pyLower]; exact hc
      have h2 : normalizeList (pyLower c :: normalizeList t) =
          pyLower (pyLower c) :: normalizeList (normalizeList t) := by
        simp [normalizeList, List.filter_cons, hc']
      rw [h2, pyLower_idem, ih]
    · have h1 : normalizeList (c :: t) = normalizeList t := by
        simp only [normalizeList, List.filter_cons]
        rw [if_neg (by simp [hc])]
      rw [h1, ih]

lemma normalizeList_map_pyLower (l : List Char) :
    normalizeList (l.map pyLower) = normalizeList l := by
  induction l with
  | nil => rfl
  | cons c t ih =>
    by_cases hc : isAsciiAlnum c = true
    · have hc' : isAsciiAlnum (pyLower c) = true := by
        rw [isAsciiAlnum_pyLower]; exact hc
      simp only [normalizeList, List.map_cons, List.filter_cons, hc', hc,
        if_pos, List.map_cons]
      rw [pyLower_idem]
      exact congrArg _ ih
    · have hc' : isAsciiAlnum (pyLower c) = false := by
        rw [isAsciiAlnum_pyLower]; simpa using hc
      simp only [normalizeList, List.map_cons, List.filter_cons, hc', hc] at ih ⊢
      simpa using ih

lemma normalizeList_filter (l : List Char) :
    normalizeList (l.filter isAsciiAlnum) = normalizeList l := by
  unfold normalizeList
  rw [List.filter_filter]
  simp

/-- C6 counterexample: the `normalize_tag` of `s4_normalize_tags.py` applied
to a non-string input (modelled as `Sum.inl ()`) returns that input
unchanged, which is not the empty-string result the claim demands. -/
theorem normalize_nonstring_not_empty :
    normalize_tag (Sum.inl () : Unit ⊕ String) = Sum.inl () ∧
    (Sum.inl () : Unit ⊕ String) ≠ Sum.inr "" :=
  ⟨rfl, by simp⟩

/-- C6 amended: the chat front end's `normalize_tag` returns an empty string
for non-string input while the `s4_normalize_tags.py` copy returns the
non-string input unchanged; on strings both strip every character that is not
an ASCII letter or digit and lowercase the remainder, normalization is
idempotent, insensitive to letter case and to stripped punctuation, and the
spec's concrete pair `"HV-MK.H441"` / `"hvmkh441"` normalizes identically. -/
theorem normalize_tag_behavior :
    (∀ (α : Type) (x : α), normalize_tag (Sum.inl x : α ⊕ String) = Sum.inl x) ∧
    (∀ (α : Type) (x : α), normalize_tag_chat (Sum.inl x : α ⊕ String) = "") ∧
    (∀ s : String, normalize_tag (Sum.inr s : Unit ⊕ String) = Sum.inr (normalizeCore s)) ∧
    (∀ s : String, normalize_tag_chat (Sum.inr s : Unit ⊕ String) = normalizeCore s) ∧
    (∀ s : String, normalizeCore (normalizeCore s) = normalizeCore s) ∧
    (∀ l : List Char, normalizeList (l.map pyLower) = normalizeList l) ∧
    (∀ l : List Char, normalizeList (l.filter isAsciiAlnum) = normalizeList l) ∧
    normalizeCore "HV-MK.H441" = normalizeCore "hvmkh441" := by
  refine ⟨fun α x => rfl, fun α x => rfl, fun s => rfl, fun s => rfl, ?_,
    normalizeList_map_pyLower, normalizeList_filter, by decide⟩
  intro s
  show String.mk (normalizeList (normalizeList s.data)) = String.mk (normalizeList s.data)
  rw [normalizeList_idem]

/-! ### `difflib.SequenceMatcher(None, a, b).ratio()`

Shallow embedding of CPython's `difflib.SequenceMatcher` with `isjunk=None`
(so the junk set `bjunk` is empty: the two junk-extension `while` loops of
`find_longest_match` never fire and are omitted, and the two plain extension
loops test only element equality).  `autojunk` is on, purging "popular"
elements from `b2j` when `len(b) >= 200`.  Dictionaries keyed by `int` are
embedded as total functions `Nat → Nat` defaulting to `0` (CPython reads them
only through `.get(·, 0)`). -/

/-- The ascending list of positions of `c` in `b`: the `b2j[c]` entry built
by `SequenceMatcher.__chain_b` before junk purging. -/
def positions (b : List Char) (c : Char) : List Nat :=
  (b.enum.filter (fun p => p.2 = c)).map Prod.fst

/-- `b2j` after `__chain_b`: positions of `c`, except that a "popular"
element (more than `len(b) // 100 + 1` occurrences when `len(b) >= 200`)
gets no entry (`autojunk`). -/
def b2jB (b : List Char) (c : Char) : List Nat :=
  if 200 ≤ b.length ∧ b.length / 100 + 1 < b.count c then [] else positions b c

/-- State of the `find_longest_match` scan: the `newj2len` dictionary being
built for the current row and the best block found so far. -/
structure ScanState where
  tbl : Nat → Nat
  besti : Nat
  bestj : Nat
  bestsize : Nat

/-- The inner `for j in b2j.get(a[i], nothing)` loop of `find_longest_match`:
skip `j < blo` (`continue`), stop at `j >= bhi` (`break`, the position lists
are ascending), otherwise chain `k = j2len.get(j-1, 0) + 1` into `newj2len`
and update the best block when `k > bestsize`.  CPython's `j2len.get(j-1, 0)`
reads key `-1` as `0` when `j = 0`, hence the explicit `j = 0` case. -/
def innerLoop (j2len : Nat → Nat) (i blo bhi : Nat) :
    List Nat → ScanState → ScanState
  | [], st => st
  | j :: rest, ⟨tbl, besti, bestj, bestsize⟩ =>
    if j < blo then innerLoop j2len i blo bhi rest ⟨tbl, besti, bestj, bestsize⟩
    else if bhi ≤ j then ⟨tbl, besti, bestj, bestsize⟩
    else
      let k := (if j = 0 then 0 else j2len (j - 1)) + 1
      let tbl' := fun j' => if j' = j then k else tbl j'
      if bestsize < k then
        innerLoop j2len i blo bhi rest ⟨tbl', i + 1 - k, j + 1 - k, k⟩
      else
        innerLoop j2len i blo bhi rest ⟨tbl', besti, bestj, bestsize⟩

/-- The outer `for i in range(alo, ahi)` loop of the `find_longest_match`
scan; `cnt` counts the remaining rows (`i + cnt = ahi`), each row starts a
fresh `newj2len` and installs it as `j2len` for the next row. -/
def outerLoop (a : List Char) (bj : Char → List Nat) (blo bhi : Nat) :
    Nat → Nat → (Nat → Nat) → Nat × Nat × Nat → Nat × Nat × Nat
  | _, 0, _, best => best
  | i, cnt + 1, j2len, (besti, bestj, bestsize) =>
    let st := innerLoop j2len i blo bhi (bj (a.getD i ' '))
      ⟨fun _ => 0, besti, bestj, bestsize⟩
    outerLoop a bj blo bhi (i + 1) cnt st.tbl (st.besti, st.bestj, st.bestsize)

/-- The first extension `while` loop of `find_longest_match` (backward, and
with `bjunk` empty the junk test is vacuous): extend while `besti > alo`,
`bestj > blo` and `a[besti-1] == b[bestj-1]`.  Fuel `besti` is supplied at
the call; the loop decrements `besti` each step, so this fuel is exact. -/
def extendBack (a b : List Char) (alo blo : Nat) :
    Nat → Nat × Nat × Nat → Nat × Nat × Nat
  | 0, t => t
  | fuel + 1, (besti, bestj, bestsize) =>
    if alo < besti ∧ blo < bestj ∧ a.getD (besti - 1) ' ' = b.getD (bestj - 1) ' '
    then extendBack a b alo blo fuel (besti - 1, bestj - 1, bestsize + 1)
    else (besti, bestj, bestsize)

/-- The second extension `while` loop (forward): extend while
`besti+bestsize < ahi`, `bestj+bestsize < bhi` and the next elements agree.
Fuel `bhi` suffices since each step needs `bestj + bestsize < bhi`. -/
def extendFwd (a b : List Char) (ahi bhi : Nat) :
    Nat → Nat × Nat × Nat → Nat × Nat × Nat
  | 0, t => t
  | fuel + 1, (besti, bestj, bestsize) =>
    if besti + bestsize < ahi ∧ bestj + bestsize < bhi ∧
        a.getD (besti + bestsize) ' ' = b.getD (bestj + bestsize) ' '
    then extendFwd a b ahi bhi fuel (besti, bestj, bestsize + 1)
    else (besti, bestj, bestsize)

/-- `SequenceMatcher.find_longest_match(alo, ahi, blo, bhi)` with `bjunk`
empty: the chaining scan followed by the backward and forward extension
loops. -/
def find_longest_match (a b : List Char) (bj : Char → List Nat)
    (alo ahi blo bhi : Nat) : Nat × Nat × Nat :=
  let scanned := outerLoop a bj blo bhi alo (ahi - alo) (fun _ => 0) (alo, blo, 0)
  extendFwd a b ahi bhi bhi (extendBack a b alo blo scanned.1 scanned)

/-- Total size of the matching blocks of `SequenceMatcher.get_matching_blocks`
on the range `(alo, ahi, blo, bhi)`: the queue-driven block collection visits
exactly this recursion tree, and sorting/merging adjacent blocks preserves
the total size, which is all `ratio` consumes.  `fuel` bounds the recursion
depth; the top-level call supplies more than enough. -/
def msum (a b : List Char) (bj : Char → List Nat) :
    Nat → Nat → Nat → Nat → Nat → Nat
  | 0, _, _, _, _ => 0
  | fuel + 1, alo, ahi, blo, bhi =>
    match find_longest_match a b bj alo ahi blo bhi with
    | (i, j, k) =>
      if k = 0 then 0
      else msum a b bj fuel alo i blo j + k + msum a b bj fuel (i + k) ahi (j + k) bhi

/-- `SequenceMatcher(None, a, b).ratio()`: `2.0 * M / T` where `M` is the
total size of the matching blocks and `T` the total length, and `1.0` when
both sequences are empty (`_calculate_ratio`).  Scores are modelled as exact
rationals. -/
def ratio (a b : List Char) : ℚ :=
  if a.length + b.length = 0 then 1
  else 2 * (msum a b (b2jB b) (a.length + b.length + 1) 0 a.length 0 b.length : ℚ) /
    ((a.length : ℚ) + (b.length : ℚ))

/-- `similarity(a, b)` from `s5_classify_tags.py` lines 4-6 (the same helper
appears in the chat front end): `SequenceMatcher(None, a, b).ratio()`. -/
def similarity (a b : String) : ℚ :=
  ratio a.data b.data

/-- Invariant of a `j2len`-style table whose nonzero entries record matching
runs ending at row `ir`: an entry `v` at key `j` stays inside `[blo, _)`,
is bounded by the distances to the range starts (`rb` bounds the row side),
and its last `v` elements match. -/
def TblInv (a b : List Char) (blo ir rb : Nat) (tbl : Nat → Nat) : Prop :=
  ∀ j, tbl j ≠ 0 →
    blo ≤ j ∧ tbl j ≤ j + 1 - blo ∧ tbl j ≤ rb ∧
    ∀ t, t < tbl j → a.getD (ir - t) ' ' = b.getD (j - t) ' '

/-- Invariant of the best block `(besti, bestj, bestsize)`: inside the
ranges and element-wise matching. -/
def BestInv (a b : List Char) (alo ahi blo bhi besti bestj bestsize : Nat) : Prop :=
  alo ≤ besti ∧ besti + bestsize ≤ ahi ∧ blo ≤ bestj ∧ bestj + bestsize ≤ bhi ∧
  ∀ t, t < bestsize → a.getD (besti + t) ' ' = b.getD (bestj + t) ' '

/-- Soundness of a `b2j` map: listed positions hold the key element. -/
def BjOk (b : List Char) (bj : Char → List Nat) : Prop :=
  ∀ c, ∀ j ∈ bj c, b.getD j ' ' = c

lemma innerLoop_spec {a b : List Char} {alo ahi blo bhi i : Nat} {j2len : Nat → Nat} :
    ∀ (js : List Nat) (tbl : Nat → Nat) (besti bestj bestsize : Nat),
      alo ≤ i → i < ahi →
      TblInv a b blo (i - 1) (i - alo) j2len →
      TblInv a b blo i (i + 1 - alo) tbl →
      BestInv a b alo ahi blo bhi besti bestj bestsize →
      (∀ j ∈ js, b.getD j ' ' = a.getD i ' ') →
      TblInv a b blo i (i + 1 - alo)
        (innerLoop j2len i blo bhi js ⟨tbl, besti, bestj, bestsize⟩).tbl ∧
      BestInv a b alo ahi blo bhi
        (innerLoop j2len i blo bhi js ⟨tbl, besti, bestj, bestsize⟩).besti
        (innerLoop j2len i blo bhi js ⟨tbl, besti, bestj, bestsize⟩).bestj
        (innerLoop j2len i blo bhi js ⟨tbl, besti, bestj, bestsize⟩).bestsize := by
  intro js
  induction js with
  | nil => intro tbl besti bestj bestsize _ _ _ htbl hbest _; exact ⟨htbl, hbest⟩
  | cons j rest ih =>
    intro tbl besti bestj bestsize halo hahi hprev htbl hbest hjs
    by_cases h1 : j < blo
    · rw [innerLoop, if_pos h1]
      exact ih tbl besti bestj bestsize halo hahi hprev htbl hbest
        (fun x hx => hjs x (List.mem_cons_of_mem _ hx))
    · by_cases h2 : bhi ≤ j
      · rw [innerLoop, if_neg h1, if_pos h2]
        exact ⟨htbl, hbest⟩
      · have hjb : blo ≤ j := by omega
        have hjh : j < bhi := by omega
        set k := (if j = 0 then 0 else j2len (j - 1)) + 1 with hk
        have kle1 : k ≤ j + 1 - blo := by
          rw [hk]
          by_cases hj0 : j = 0
          · rw [if_pos hj0]
            omega
          · rw [if_neg hj0]
            by_cases hz : j2len (j - 1) = 0
            · rw [hz]; omega
            · have := (hprev (j - 1) hz).2.1
              omega
        have kle2 : k ≤ i + 1 - alo := by
          rw [hk]
          by_cases hj0 : j = 0
          · rw [if_pos hj0]
            omega
          · rw [if_neg hj0]
            by_cases hz : j2len (j - 1) = 0
            · rw [hz]; omega
            · have := (hprev (j - 1) hz).2.2.1
              omega
        have kwin : ∀ t, t < k → a.getD (i - t) ' ' = b.getD (j - t) ' ' := by
          intro t ht
          cases t with
          | zero =>
            simpa using (hjs j (List.mem_cons_self _ _)).symm
          | succ u =>
            have hj0 : j ≠ 0 := by
              intro hj0
              rw [hk, if_pos hj0] at ht
              omega
            rw [hk, if_neg hj0] at ht
            have hz : j2len (j - 1) ≠ 0 := by omega
            obtain ⟨_, _, hrb, hwin⟩ := hprev (j - 1) hz
            have e1 : i - (u + 1) = (i - 1) - u := by omega
            have e2 : j - (u + 1) = (j - 1) - u := by omega
            rw [e1, e2]
            exact hwin u (by omega)
        have htbl' : TblInv a b blo i (i + 1 - alo)
            (fun j' => if j' = j then k else tbl j') := by
          intro j' hj'
          by_cases he : j' = j
          · subst he
            simp only [if_pos rfl] at hj' ⊢
            exact ⟨hjb, kle1, kle2, fun t ht => kwin t ht⟩
          · simp only [if_neg he] at hj' ⊢
            exact htbl j' hj'
        have hrest : ∀ x ∈ rest, b.getD x ' ' = a.getD i ' ' :=
          fun x hx => hjs x (List.mem_cons_of_mem _ hx)
        by_cases hup : bestsize < k
        · rw [innerLoop, if_neg h1, if_neg h2]
          simp only [← hk, if_pos hup]
          apply ih _ _ _ _ halo hahi hprev htbl' _ hrest
          obtain ⟨g1, g2, g3, g4, g5⟩ := hbest
          refine ⟨by omega, by omega, by omega, by omega, ?_⟩
          intro t ht
          have e1 : i + 1 - k + t = i - (k - 1 - t) := by omega
          have e2 : j + 1 - k + t = j - (k - 1 - t) := by omega
          rw [e1, e2]
          exact kwin (k - 1 - t) (by omega)
        · rw [innerLoop, if_neg h1, if_neg h2]
          simp only [← hk, if_neg hup]
          exact ih _ _ _ _ halo hahi hprev htbl' hbest hrest

lemma outerLoop_spec {a b : List Char} {bj : Char → List Nat} {alo ahi blo bhi : Nat}
    (hbj : BjOk b bj) :
    ∀ (cnt i : Nat) (j2len : Nat → Nat) (besti bestj bestsize : Nat),
      i + cnt = ahi → alo ≤ i →
      TblInv a b blo (i - 1) (i - alo) j2len →
      BestInv a b alo ahi blo bhi besti bestj bestsize →
      BestInv a b alo ahi blo bhi
        (outerLoop a bj blo bhi i cnt j2len (besti, bestj, bestsize)).1
        (outerLoop a bj blo bhi i cnt j2len (besti, bestj, bestsize)).2.1
        (outerLoop a bj blo bhi i cnt j2len (besti, bestj, bestsize)).2.2 := by
  intro cnt
  induction cnt with
  | zero => intro i j2len besti bestj bestsize _ _ _ hbest; exact hbest
  | succ n ih =>
    intro i j2len besti bestj bestsize hcnt hi hprev hbest
    have hahi : i < ahi := by omega
    have hfresh : TblInv a b blo i (i + 1 - alo) (fun _ => (0 : Nat)) := by
      intro j hj
      simp at hj
    obtain ⟨htbl', hbest'⟩ := innerLoop_spec (bj (a.getD i ' '))
      (fun _ => 0) besti bestj bestsize hi hahi hprev hfresh hbest
      (hbj (a.getD i ' '))
    rw [outerLoop]
    have e1 : (i + 1) - 1 = i := by omega
    refine ih (i + 1) _ _ _ _ (by omega) (by omega) ?_ hbest'
    rw [e1]
    exact htbl'

lemma extendBack_inv {a b : List Char} {alo ahi blo bhi : Nat} :
    ∀ (fuel besti bestj bestsize : Nat),
      BestInv a b alo ahi blo bhi besti bestj bestsize →
      BestInv a b alo ahi blo bhi
        (extendBack a b alo blo fuel (besti, bestj, bestsize)).1
        (extendBack a b alo blo fuel (besti, bestj, bestsize)).2.1
        (extendBack a b alo blo fuel (besti, bestj, bestsize)).2.2 := by
  intro fuel
  induction fuel with
  | zero => intro besti bestj bestsize h; exact h
  | succ n ih =>
    intro besti bestj bestsize h
    rw [extendBack]
    split
    · next hcond =>
      obtain ⟨hc1, hc2, hc3⟩ := hcond
      apply ih
      obtain ⟨g1, g2, g3, g4, g5⟩ := h
      refine ⟨by omega, by omega, by omega, by omega, ?_⟩
      intro t ht
      cases t with
      | zero => simpa using hc3
      | succ u =>
        have e1 : besti - 1 + (u + 1) = besti + u := by omega
        have e2 : bestj - 1 + (u + 1) = bestj + u := by omega
        rw [e1, e2]
        exact g5 u (by omega)
    · exact h

lemma extendFwd_inv {a b : List Char} {alo ahi blo bhi : Nat} :
    ∀ (fuel besti bestj bestsize : Nat),
      BestInv a b alo ahi blo bhi besti bestj bestsize →
      BestInv a b alo ahi blo bhi
        (extendFwd a b ahi bhi fuel (besti, bestj, bestsize)).1
        (extendFwd a b ahi bhi fuel (besti, bestj, bestsize)).2.1
        (extendFwd a b ahi bhi fuel (besti, bestj, bestsize)).2.2 := by
  intro fuel
  induction fuel with
  | zero => intro besti bestj bestsize h; exact h
  | succ n ih =>
    intro besti bestj bestsize h
    rw [extendFwd]
    split
    · next hcond =>
      obtain ⟨hc1, hc2, hc3⟩ := hcond
      apply ih
      obtain ⟨g1, g2, g3, g4, g5⟩ := h
      refine ⟨by omega, by omega, by omega, by omega, ?_⟩
      intro t ht
      by_cases he : t = bestsize
      · subst he
        exact hc3
      · exact g5 t (by omega)
    · exact h

/-- `find_longest_match` returns a block inside the ranges whose elements
match pairwise. -/
lemma flm_spec {a b : List Char} {bj : Char → List Nat} {alo ahi blo bhi : Nat}
    (hai : alo ≤ ahi) (hbi : blo ≤ bhi) (hbj : BjOk b bj) :
    BestInv a b alo ahi blo bhi
      (find_longest_match a b bj alo ahi blo bhi).1
      (find_longest_match a b bj alo ahi blo bhi).2.1
      (find_longest_match a b bj alo ahi blo bhi).2.2 := by
  have hinit : BestInv a b alo ahi blo bhi alo blo 0 := by
    refine ⟨le_refl _, by omega, le_refl _, by omega, ?_⟩
    intro t ht
    omega
  have hfresh : TblInv a b blo (alo - 1) (alo - alo) (fun _ => (0 : Nat)) := by
    intro j hj
    simp at hj
  have hscan := outerLoop_spec hbj (ahi - alo) alo (fun _ => 0) alo blo 0
    (by omega) (le_refl _) hfresh hinit
  rcases hsc : outerLoop a bj blo bhi alo (ahi - alo) (fun _ => 0) (alo, blo, 0)
    with ⟨si, sj, sk⟩
  rw [hsc] at hscan
  dsimp only at hscan
  rcases heb : extendBack a b alo blo si (si, sj, sk) with ⟨ei, ej, ek⟩
  have hback := extendBack_inv si si sj sk hscan
  rw [heb] at hback
  dsimp only at hback
  have hfwd := extendFwd_inv bhi ei ej ek hback
  simp only [find_longest_match]
  rw [hsc]
  dsimp only
  rw [heb]
  exact hfwd

lemma mem_positions {b : List Char} {c : Char} {j : Nat} :
    j ∈ positions b c ↔ b[j]? = some c := by
  unfold positions
  rw [List.mem_map]
  constructor
  · rintro ⟨⟨j', d⟩, hmem, rfl⟩
    rw [List.mem_filter] at hmem
    obtain ⟨he, hd⟩ := hmem
    have hdc : d = c := by simpa using hd
    subst hdc
    exact List.mem_enum_iff_getElem?.mp he
  · intro h
    refine ⟨(j, c), ?_, rfl⟩
    rw [List.mem_filter]
    exact ⟨List.mem_enum_iff_getElem?.mpr h, by simp⟩

lemma b2jB_ok (b : List Char) : BjOk b (b2jB b) := by
  intro c j hj
  unfold b2jB at hj
  split at hj
  · simp at hj
  · have hsome := mem_positions.mp hj
    obtain ⟨hlt, hval⟩ := List.getElem?_eq_some.mp hsome
    rw [List.getD_eq_getElem b ' ' hlt]
    exact hval

lemma msum_le {a b : List Char} {bj : Char → List Nat} (hbj : BjOk b bj) :
    ∀ (fuel alo ahi blo bhi : Nat), alo ≤ ahi → blo ≤ bhi →
      msum a b bj fuel alo ahi blo bhi ≤ ahi - alo ∧
      msum a b bj fuel alo ahi blo bhi ≤ bhi - blo := by
  intro fuel
  induction fuel with
  | zero => intro alo ahi blo bhi _ _; exact ⟨Nat.zero_le _, Nat.zero_le _⟩
  | succ n ih =>
    intro alo ahi blo bhi hai hbi
    have hb := @flm_spec a b bj alo ahi blo bhi hai hbi hbj
    rcases hflm : find_longest_match a b bj alo ahi blo bhi with ⟨i, j, k⟩
    rw [hflm] at hb
    dsimp only at hb
    obtain ⟨hb1, hb2, hb3, hb4, _⟩ := hb
    rw [msum, hflm]
    dsimp only
    by_cases hk : k = 0
    · rw [if_pos hk]
      exact ⟨Nat.zero_le _, Nat.zero_le _⟩
    · rw [if_neg hk]
      obtain ⟨hl1, hl2⟩ := ih alo i blo j (by omega) (by omega)
      obtain ⟨hr1, hr2⟩ := ih (i + k) ahi (j + k) bhi (by omega) (by omega)
      exact ⟨by omega, by omega⟩

lemma ratio_bounds (a b : List Char) : 0 ≤ ratio a b ∧ ratio a b ≤ 1 := by
  unfold ratio
  split
  · norm_num
  · next h =>
    have hM := msum_le (a := a) (b2jB_ok b) (a.length + b.length + 1) 0 a.length
      0 b.length (by omega) (by omega)
    have hpos : (0 : ℚ) < (a.length : ℚ) + (b.length : ℚ) := by
      have : 0 < a.length + b.length := by omega
      exact_mod_cast this
    constructor
    · apply div_nonneg _ (le_of_lt hpos)
      positivity
    · rw [div_le_one hpos]
      have h2 : 2 * msum a b (b2jB b) (a.length + b.length + 1) 0 a.length 0 b.length ≤
          a.length + b.length := by omega
      exact_mod_cast h2

/-- Position `j` of `l` is "kept": it appears in the `b2j` entry of its own
element (equivalently, its element was not purged as popular). -/
def kept (l : List Char) (j : Nat) : Prop := j ∈ b2jB l (l.getD j ' ')

instance keptDec (l : List Char) (j : Nat) : Decidable (kept l j) := by
  unfold kept
  exact inferInstance

/-- Length of the run of consecutive kept positions of `l` ending at `j`. -/
def kRun (l : List Char) : Nat → Nat
  | 0 => if kept l 0 then 1 else 0
  | j + 1 => if kept l (j + 1) then kRun l j + 1 else 0

lemma kRun_pos_of_kept {l : List Char} {j : Nat} (h : kept l j) : 1 ≤ kRun l j := by
  cases j with
  | zero => simp [kRun, h]
  | succ m => simp [kRun, h]

lemma kRun_eq_zero {l : List Char} {j : Nat} (h : ¬ kept l j) : kRun l j = 0 := by
  cases j with
  | zero => simp [kRun, h]
  | succ m => simp [kRun, h]

lemma kRun_of_kept {l : List Char} {j : Nat} (h : kept l j) :
    kRun l j = (if j = 0 then 0 else kRun l (j - 1)) + 1 := by
  cases j with
  | zero => simp [kRun, h]
  | succ m => simp [kRun, h]

lemma kept_of_mem_b2jB {l : List Char} {c : Char} {j : Nat} (h : j ∈ b2jB l c) :
    kept l j := by
  have hc := b2jB_ok l c j h
  unfold kept
  rw [hc]
  exact h

lemma lt_length_of_mem_b2jB {l : List Char} {c : Char} {j : Nat} (h : j ∈ b2jB l c) :
    j < l.length := by
  unfold b2jB at h
  split at h
  · simp at h
  · exact (List.getElem?_eq_some.mp (mem_positions.mp h)).1

lemma positions_pairwise (b : List Char) (c : Char) :
    List.Pairwise (· < ·) (positions b c) := by
  unfold positions
  rw [List.pairwise_map]
  refine List.Pairwise.sublist (List.filter_sublist _) ?_
  rw [← List.pairwise_map (f := Prod.fst), List.enum_map_fst]
  exact List.pairwise_lt_range _

lemma b2jB_pairwise (b : List Char) (c : Char) :
    List.Pairwise (· < ·) (b2jB b c) := by
  unfold b2jB
  split
  · exact List.Pairwise.nil
  · exact positions_pairwise b c

lemma b2jB_row_empty {l : List Char} {i : Nat} (hlt : i < l.length)
    (hnk : ¬ kept l i) : b2jB l (l.getD i ' ') = [] := by
  unfold kept at hnk
  unfold b2jB at hnk ⊢
  split
  · rfl
  · next hcond =>
    exfalso
    apply hnk
    rw [if_neg hcond, mem_positions, List.getElem?_eq_some]
    exact ⟨hlt, (List.getD_eq_getElem l ' ' hlt).symm⟩

/-- On a self-comparison the scan never moves the best block off the
diagonal: processing one row keeps `besti = bestj`, keeps the best size
at least every finished kept-run, and maintains the run-table invariants. -/
lemma innerLoop_diag {l : List Char} {i n : Nat} {j2len : Nat → Nat}
    (hkepti : kept l i)
    (hP1 : ∀ j, j2len j ≠ 0 → j2len j ≤ kRun l j)
    (hP2 : ∀ j, j2len j ≠ 0 → 1 ≤ i ∧ j2len j ≤ kRun l (i - 1))
    (hdiag : 1 ≤ i → j2len (i - 1) = kRun l (i - 1)) :
    ∀ (js : List Nat) (tbl : Nat → Nat) (bi bj bs : Nat),
      List.Pairwise (· < ·) js →
      (∀ j ∈ js, j < n ∧ kept l j) →
      ((i ∈ js ∧ tbl i = 0) ∨ (kRun l i ≤ bs ∧ tbl i = kRun l i)) →
      (∀ j, j < i → kRun l j ≤ bs) →
      bi = bj →
      (∀ j, tbl j ≠ 0 → tbl j ≤ kRun l j ∧ tbl j ≤ kRun l i) →
      (innerLoop j2len i 0 n js ⟨tbl, bi, bj, bs⟩).besti =
        (innerLoop j2len i 0 n js ⟨tbl, bi, bj, bs⟩).bestj ∧
      (∀ j, j < i → kRun l j ≤ (innerLoop j2len i 0 n js ⟨tbl, bi, bj, bs⟩).bestsize) ∧
      (kRun l i ≤ (innerLoop j2len i 0 n js ⟨tbl, bi, bj, bs⟩).bestsize ∧
        (innerLoop j2len i 0 n js ⟨tbl, bi, bj, bs⟩).tbl i = kRun l i) ∧
      (∀ j, (innerLoop j2len i 0 n js ⟨tbl, bi, bj, bs⟩).tbl j ≠ 0 →
        (innerLoop j2len i 0 n js ⟨tbl, bi, bj, bs⟩).tbl j ≤ kRun l j ∧
        (innerLoop j2len i 0 n js ⟨tbl, bi, bj, bs⟩).tbl j ≤ kRun l i) := by
  intro js
  induction js with
  | nil =>
    intro tbl bi bj bs _ _ hphase hbs hdg htbl
    rcases hphase with ⟨hmem, _⟩ | ⟨h1, h2⟩
    · simp at hmem
    · exact ⟨hdg, hbs, ⟨h1, h2⟩, htbl⟩
  | cons j rest ih =>
    intro tbl bi bj bs hpw hjs hphase hbs hdg htbl
    obtain ⟨hjn, hjk⟩ := hjs j (List.mem_cons_self _ _)
    obtain ⟨hlt_rest, hpw'⟩ := List.pairwise_cons.mp hpw
    rw [innerLoop, if_neg (Nat.not_lt_zero j), if_neg (by omega : ¬ n ≤ j)]
    set k := (if j = 0 then 0 else j2len (j - 1)) + 1 with hk
    have hkri := kRun_of_kept hkepti
    have hkrj := kRun_of_kept hjk
    have kle_row : k ≤ kRun l i := by
      rw [hk]
      by_cases j0 : j = 0
      · rw [if_pos j0]
        exact kRun_pos_of_kept hkepti
      · rw [if_neg j0]
        by_cases hz : j2len (j - 1) = 0
        · rw [hz]
          exact kRun_pos_of_kept hkepti
        · obtain ⟨hi1, hle⟩ := hP2 _ hz
          rw [if_neg (by omega : ¬ i = 0)] at hkri
          omega
    have kle_col : k ≤ kRun l j := by
      rw [hk]
      by_cases j0 : j = 0
      · rw [if_pos j0]
        exact kRun_pos_of_kept hjk
      · rw [if_neg j0]
        by_cases hz : j2len (j - 1) = 0
        · rw [hz]
          exact kRun_pos_of_kept hjk
        · have hle := hP1 _ hz
          rw [if_neg j0] at hkrj
          omega
    have kdiag : j = i → k = kRun l i := by
      intro hji
      subst hji
      rw [hk]
      by_cases j0 : j = 0
      · rw [if_pos j0]
        rw [j0] at hkrj ⊢
        rw [if_pos rfl] at hkrj
        omega
      · rw [if_neg j0]
        rw [hdiag (by omega)]
        rw [if_neg j0] at hkrj
        omega
    have hrest_js : ∀ x ∈ rest, x < n ∧ kept l x :=
      fun x hx => hjs x (List.mem_cons_of_mem _ hx)
    have htbl' : ∀ j', (fun j' => if j' = j then k else tbl j') j' ≠ 0 →
        (fun j' => if j' = j then k else tbl j') j' ≤ kRun l j' ∧
        (fun j' => if j' = j then k else tbl j') j' ≤ kRun l i := by
      intro j' hj'
      by_cases he : j' = j
      · subst he
        simp only [if_pos rfl] at hj' ⊢
        exact ⟨kle_col, kle_row⟩
      · simp only [if_neg he] at hj' ⊢
        exact htbl j' hj'
    by_cases hup : bs < k
    · have hji : j = i := by
        by_contra hne
        rcases Nat.lt_or_ge j i with hlt | hge
        · have := hbs j hlt
          omega
        · have hgt : i < j := by omega
          rcases hphase with ⟨hmem, _⟩ | ⟨h1, _⟩
          · rcases List.mem_cons.mp hmem with he | hr
            · omega
            · have := hlt_rest i hr
              omega
          · omega
      subst hji
      simp only [← hk, if_pos hup]
      apply ih
      · exact hpw'
      · exact hrest_js
      · right
        refine ⟨le_of_eq (kdiag rfl).symm, ?_⟩
        simp only [if_pos rfl]
        exact kdiag rfl
      · intro j' hj'
        have := hbs j' hj'
        omega
      · rfl
      · exact htbl'
    · simp only [← hk, if_neg hup]
      apply ih
      · exact hpw'
      · exact hrest_js
      · rcases hphase with ⟨hmem, hz⟩ | ⟨h1, h2⟩
        · rcases List.mem_cons.mp hmem with he | hr
          · right
            have hkk : k = kRun l i := kdiag he.symm
            constructor
            · omega
            · simp only [if_pos he]
              exact hkk
          · left
            have hne : i ≠ j := by
              have := hlt_rest i hr
              omega
            refine ⟨hr, ?_⟩
            simp only [if_neg hne]
            exact hz
        · right
          refine ⟨h1, ?_⟩
          by_cases he : i = j
          · have hkk : k = kRun l i := kdiag he.symm
            simp only [if_pos he]
            exact hkk
          · simp only [if_neg he]
            exact h2
      · exact hbs
      · exact hdg
      · exact htbl'

/-- On a self-comparison the whole scan keeps the best block on the
diagonal. -/
lemma outerLoop_diag {l : List Char} {n : Nat} (hn : n = l.length) :
    ∀ (cnt i : Nat) (j2len : Nat → Nat) (bi bj bs : Nat),
      i + cnt = n →
      (∀ j, j2len j ≠ 0 → j2len j ≤ kRun l j) →
      (∀ j, j2len j ≠ 0 → 1 ≤ i ∧ j2len j ≤ kRun l (i - 1)) →
      (1 ≤ i → j2len (i - 1) = kRun l (i - 1)) →
      (∀ j, j < i → kRun l j ≤ bs) →
      bi = bj →
      (outerLoop l (b2jB l) 0 n i cnt j2len (bi, bj, bs)).1 =
        (outerLoop l (b2jB l) 0 n i cnt j2len (bi, bj, bs)).2.1 := by
  intro cnt
  induction cnt with
  | zero =>
    intro i j2len bi bj bs _ _ _ _ _ hdg
    exact hdg
  | succ m ih =>
    intro i j2len bi bj bs hcnt hP1 hP2 hdiag hbs hdg
    have hin : i < n := by omega
    rw [outerLoop]
    by_cases hkepti : kept l i
    · have hjsfacts : ∀ j ∈ b2jB l (l.getD i ' '), j < n ∧ kept l j := by
        intro j hj
        exact ⟨hn ▸ lt_length_of_mem_b2jB hj, kept_of_mem_b2jB hj⟩
      have hd := innerLoop_diag (n := n) hkepti hP1 hP2 hdiag
        (b2jB l (l.getD i ' ')) (fun _ => 0) bi bj bs
        (b2jB_pairwise l _) hjsfacts (Or.inl ⟨hkepti, rfl⟩) hbs hdg
        (by intro j hj; simp at hj)
      obtain ⟨r1, r2, ⟨r3a, r3b⟩, r4⟩ := hd
      apply ih (i + 1)
      · omega
      · intro j hj
        exact (r4 j hj).1
      · intro j hj
        refine ⟨by omega, ?_⟩
        have e1 : i + 1 - 1 = i := by omega
        rw [e1]
        exact (r4 j hj).2
      · intro _
        have e1 : i + 1 - 1 = i := by omega
        rw [e1]
        exact r3b
      · intro j hj
        by_cases hji : j < i
        · exact r2 j hji
        · have : j = i := by omega
          subst this
          exact r3a
      · exact r1
    · rw [b2jB_row_empty (hn ▸ hin) hkepti, innerLoop]
      apply ih (i + 1)
      · omega
      · intro j hj
        simp at hj
      · intro j hj
        simp at hj
      · intro _
        have e1 : i + 1 - 1 = i := by omega
        rw [e1]
        exact (kRun_eq_zero hkepti).symm
      · intro j hj
        by_cases hji : j < i
        · exact hbs j hji
        · have : j = i := by omega
          subst this
          rw [kRun_eq_zero hkepti]
          omega
      · exact hdg

/-- Backward extension of a diagonal block on a self-comparison runs all the
way to the start. -/
lemma extendBack_diag (l : List Char) :
    ∀ (d s : Nat), extendBack l l 0 0 d (d, d, s) = (0, 0, d + s) := by
  intro d
  induction d with
  | zero => intro s; simp [extendBack]
  | succ m ih =>
    intro s
    rw [extendBack, if_pos ⟨by omega, by omega, rfl⟩]
    have e1 : m + 1 - 1 = m := by omega
    rw [e1, ih (s + 1)]
    simp only [Prod.mk.injEq]
    exact ⟨trivial, trivial, by omega⟩

/-- Forward extension of a prefix block on a self-comparison runs to the
full length. -/
lemma extendFwd_diag (l : List Char) (n : Nat) :
    ∀ (fuel t : Nat), t ≤ n → n - t ≤ fuel →
      extendFwd l l n n fuel (0, 0, t) = (0, 0, n) := by
  intro fuel
  induction fuel with
  | zero =>
    intro t h1 h2
    have : t = n := by omega
    subst this
    rfl
  | succ m ih =>
    intro t h1 h2
    by_cases ht : t < n
    · rw [extendFwd, if_pos ⟨by omega, by omega, rfl⟩]
      exact ih (t + 1) (by omega) (by omega)
    · have : t = n := by omega
      subst this
      rw [extendFwd, if_neg (by omega)]

/-- `find_longest_match` on a full-range self-comparison returns the whole
sequence as one block. -/
lemma flm_self (l : List Char) :
    find_longest_match l l (b2jB l) 0 l.length 0 l.length = (0, 0, l.length) := by
  have hscan := @outerLoop_spec l l (b2jB l) 0 l.length 0 l.length (b2jB_ok l)
    (l.length - 0) 0 (fun _ => 0) 0 0 0
    (by omega) (le_refl _) (by intro j hj; simp at hj)
    ⟨le_refl _, by omega, le_refl _, by omega, by intro t ht; omega⟩
  have hdg := outerLoop_diag (l := l) rfl (l.length - 0) 0 (fun _ => 0) 0 0 0
    (by omega) (by intro j hj; simp at hj) (by intro j hj; simp at hj)
    (by intro h; omega) (by intro j hj; omega) rfl
  rcases hsc : outerLoop l (b2jB l) 0 l.length 0 (l.length - 0) (fun _ => 0) (0, 0, 0)
    with ⟨si, sj, sk⟩
  rw [hsc] at hscan hdg
  dsimp only at hscan hdg
  subst hdg
  obtain ⟨_, _, _, hjk, _⟩ := hscan
  simp only [find_longest_match]
  rw [hsc]
  dsimp only
  rw [extendBack_diag l si sk]
  exact extendFwd_diag l l.length l.length (si + sk) (by omega) (by omega)

lemma extendBack_stop {a b : List Char} {blo x : Nat} :
    ∀ (fuel j s : Nat), extendBack a b x blo fuel (x, j, s) = (x, j, s) := by
  intro fuel j s
  cases fuel with
  | zero => rfl
  | succ m =>
    rw [extendBack, if_neg]
    intro h
    exact absurd h.1 (lt_irrefl x)

lemma extendFwd_stop {a b : List Char} {ahi bhi : Nat} :
    ∀ (fuel i j s : Nat), ahi ≤ i + s → extendFwd a b ahi bhi fuel (i, j, s) = (i, j, s) := by
  intro fuel i j s h
  cases fuel with
  | zero => rfl
  | succ m =>
    rw [extendFwd, if_neg]
    intro hc
    omega

lemma flm_empty {a b : List Char} {bj : Char → List Nat} (x y : Nat) :
    find_longest_match a b bj x x y y = (x, y, 0) := by
  simp only [find_longest_match, Nat.sub_self]
  rw [outerLoop]
  dsimp only
  rw [extendBack_stop]
  exact extendFwd_stop _ _ _ _ (by omega)

lemma msum_empty {a b : List Char} {bj : Char → List Nat} :
    ∀ (fuel x y : Nat), msum a b bj fuel x x y y = 0 := by
  intro fuel x y
  cases fuel with
  | zero => rfl
  | succ m =>
    rw [msum, flm_empty]
    dsimp only
    rw [if_pos rfl]

/-- On any self-comparison (any length, the autojunk purge included) `ratio`
is exactly one. -/
lemma ratio_self (l : List Char) : ratio l l = 1 := by
  unfold ratio
  split
  · rfl
  · next h0 =>
    have hn : 1 ≤ l.length := by omega
    have hms : msum l l (b2jB l) (l.length + l.length + 1) 0 l.length 0 l.length =
        l.length := by
      rw [msum, flm_self]
      dsimp only
      rw [if_neg (by omega)]
      simp only [Nat.zero_add]
      rw [msum_empty, msum_empty]
      omega
    rw [hms]
    have hne : ((l.length : ℚ) + (l.length : ℚ)) ≠ 0 := by
      have : (0 : ℚ) < (l.length : ℚ) + (l.length : ℚ) := by
        have : 0 < l.length + l.length := by omega
        exact_mod_cast this
      exact ne_of_gt this
    rw [div_eq_one_iff_eq hne]
    ring

/-- A total match size that exhausts both ranges forces the two ranges to be
element-wise equal. -/
lemma msum_full {a b : List Char} {bj : Char → List Nat} (hbj : BjOk b bj) :
    ∀ (fuel alo ahi blo bhi : Nat), alo ≤ ahi → blo ≤ bhi →
      msum a b bj fuel alo ahi blo bhi = ahi - alo →
      msum a b bj fuel alo ahi blo bhi = bhi - blo →
      ∀ t, t < ahi - alo → a.getD (alo + t) ' ' = b.getD (blo + t) ' ' := by
  intro fuel
  induction fuel with
  | zero =>
    intro alo ahi blo bhi _ _ h1 _ t ht
    simp only [msum] at h1
    omega
  | succ n ih =>
    intro alo ahi blo bhi hai hbi h1 h2 t ht
    have hb := @flm_spec a b bj alo ahi blo bhi hai hbi hbj
    rcases hflm : find_longest_match a b bj alo ahi blo bhi with ⟨i, j, k⟩
    rw [hflm] at hb
    dsimp only at hb
    obtain ⟨hb1, hb2, hb3, hb4, hwin⟩ := hb
    rw [msum, hflm] at h1 h2
    dsimp only at h1 h2
    by_cases hk : k = 0
    · rw [if_pos hk] at h1
      omega
    · rw [if_neg hk] at h1 h2
      obtain ⟨hl1, hl2⟩ := msum_le (a := a) hbj n alo i blo j (by omega) (by omega)
      obtain ⟨hr1, hr2⟩ := msum_le (a := a) hbj n (i + k) ahi (j + k) bhi
        (by omega) (by omega)
      have hlfull1 : msum a b bj n alo i blo j = i - alo := by omega
      have hlfull2 : msum a b bj n alo i blo j = j - blo := by omega
      have hrfull1 : msum a b bj n (i + k) ahi (j + k) bhi = ahi - (i + k) := by omega
      have hrfull2 : msum a b bj n (i + k) ahi (j + k) bhi = bhi - (j + k) := by omega
      have hleft := ih alo i blo j (by omega) (by omega) hlfull1 hlfull2
      have hright := ih (i + k) ahi (j + k) bhi (by omega) (by omega) hrfull1 hrfull2
      have halign : i - alo = j - blo := by omega
      rcases Nat.lt_or_ge t (i - alo) with hcase | hcase
      · have := hleft t hcase
        have e2 : blo + t = blo + t := rfl
        exact this
      · rcases Nat.lt_or_ge t (i - alo + k) with hcase2 | hcase2
        · have hu : t - (i - alo) < k := by omega
          have e1 : alo + t = i + (t - (i - alo)) := by omega
          have e2 : blo + t = j + (t - (i - alo)) := by omega
          rw [e1, e2]
          exact hwin _ hu
        · have hu : t - (i - alo) - k < ahi - (i + k) := by omega
          have e1 : alo + t = i + k + (t - (i - alo) - k) := by omega
          have e2 : blo + t = j + k + (t - (i - alo) - k) := by omega
          rw [e1, e2]
          exact hright _ hu

/-- If `ratio` is one the two sequences are equal. -/
lemma eq_of_ratio_eq_one {a b : List Char} (h : ratio a b = 1) : a = b := by
  unfold ratio at h
  split at h
  · next h0 =>
    have ha : a.length = 0 := by omega
    have hb : b.length = 0 := by omega
    rw [List.length_eq_zero] at ha hb
    rw [ha, hb]
  · next h0 =>
    have hne : ((a.length : ℚ) + (b.length : ℚ)) ≠ 0 := by
      have : (0 : ℚ) < (a.length : ℚ) + (b.length : ℚ) := by
        have : 0 < a.length + b.length := by omega
        exact_mod_cast this
      exact ne_of_gt this
    rw [div_eq_one_iff_eq hne] at h
    have h2M : 2 * msum a b (b2jB b) (a.length + b.length + 1) 0 a.length 0 b.length =
        a.length + b.length := by exact_mod_cast h
    obtain ⟨hM1, hM2⟩ := msum_le (a := a) (b2jB_ok b) (a.length + b.length + 1)
      0 a.length 0 b.length (by omega) (by omega)
    have hMa : msum a b (b2jB b) (a.length + b.length + 1) 0 a.length 0 b.length =
        a.length - 0 := by omega
    have hMb : msum a b (b2jB b) (a.length + b.length + 1) 0 a.length 0 b.length =
        b.length - 0 := by omega
    have hlen : a.length = b.length := by omega
    have hpt := msum_full (b2jB_ok b) (a.length + b.length + 1) 0 a.length 0 b.length
      (by omega) (by omega) hMa hMb
    apply List.ext_getElem hlen
    intro t h1 h2
    have := hpt t (by omega)
    rw [Nat.zero_add] at this
    rw [List.getD_eq_getElem a ' ' h1, List.getD_eq_getElem b ' ' h2] at this
    exact this

lemma string_eq_of_data_eq {a b : String} (h : a.data = b.data) : a = b := by
  cases a
  cases b
  exact congrArg String.mk h

/-- C5 counterexample: `similarity` is not symmetric.  On the pair
`("abzcd", "cdabyz")` the greedy matcher finds the blocks `"ab"` and `"z"`
(total 3) in one direction but only the block `"cd"` (total 2) in the other,
so the two ratios are `6/11` and `4/11`. -/
theorem similarity_not_symmetric :
    similarity "abzcd" "cdabyz" ≠ similarity "cdabyz" "abzcd" := by
  have hm1 : msum "abzcd".data "cdabyz".data (b2jB "cdabyz".data)
      ("abzcd".data.length + "cdabyz".data.length + 1) 0 "abzcd".data.length
      0 "cdabyz".data.length = 3 := by decide
  have hm2 : msum "cdabyz".data "abzcd".data (b2jB "abzcd".data)
      ("cdabyz".data.length + "abzcd".data.length + 1) 0 "cdabyz".data.length
      0 "abzcd".data.length = 2 := by decide
  have hl1 : ("abzcd".data).length = 5 := by decide
  have hl2 : ("cdabyz".data).length = 6 := by decide
  unfold similarity ratio
  rw [hm1, hm2, hl1, hl2]
  norm_num

/-- C5 amended: the resolver's `similarity` (SequenceMatcher ratio) always
lies in the range `[0, 1]` and equals `1` exactly when the two strings are
identical; it is, however, not symmetric in general. -/
theorem similarity_range_and_identity :
    (∀ a b : String, 0 ≤ similarity a b ∧ similarity a b ≤ 1) ∧
    (∀ a b : String, similarity a b = 1 ↔ a = b) := by
  constructor
  · intro a b
    exact ratio_bounds a.data b.data
  · intro a b
    constructor
    · intro h
      exact string_eq_of_data_eq (eq_of_ratio_eq_one h)
    · intro h
      subst h
      exact ratio_self a.data

/-! ### Entity Resolver and Flow Classifier (`s5_classify_tags.py`) -/

/-- The categories assigned by `find_best_match`. -/
inductive Category where
  | node
  | pipeline
  | equipment
  | instrumentation
  | handvalve
deriving DecidableEq, Repr

/-- The `{category, details, score}` dictionary returned by
`find_best_match`; `details` is the matched reference record. -/
structure MatchResult (α : Type) where
  category : Category
  details : Option α
  score : ℚ
deriving DecidableEq

/-- Python `str.strip` whitespace class (ASCII whitespace; the tags handled
by the pipeline are ASCII). -/
def isPySpace (c : Char) : Bool :=
  c = ' ' || c = '\t' || c = '\n' || c = '\r' || c = '\x0b' || c = '\x0c'

/-- Python `str.strip()`: drop leading and trailing whitespace. -/
def pyStrip (s : String) : String :=
  String.mk (((s.data.dropWhile isPySpace).reverse.dropWhile isPySpace).reverse)

/-- Python `str.lower()` on the ASCII tags handled by the pipeline. -/
def pyLowerStr (s : String) : String :=
  String.mk (s.data.map pyLower)

/-- The two nested `for` loops of the fuzzy-match block of `find_best_match`
(`s5_classify_tags.py` lines 42-51), walking the concatenated
`(category, ref_tag, details)` entries of the three lookup dictionaries and
keeping the strictly highest-scoring candidate (first seen wins ties). -/
def bestFold {α : Type} (tag_lower : String) :
    List (Category × String × α) → MatchResult α → MatchResult α
  | [], best => best
  | (cat, ref_tag, details) :: rest, best =>
    let score := similarity tag_lower ref_tag
    if best.score < score then
      bestFold tag_lower rest ⟨cat, some details, score⟩
    else
      bestFold tag_lower rest best

/-- The concatenated entries of the three reference dictionaries, in the
table order `equipment, instrumentation, handvalve` of the source. -/
def allEntries {α : Type}
    (equipment_tags instrument_tags handvalve_tags : List (String × α)) :
    List (Category × String × α) :=
  equipment_tags.map (fun p => (Category.equipment, p.1, p.2)) ++
  instrument_tags.map (fun p => (Category.instrumentation, p.1, p.2)) ++
  handvalve_tags.map (fun p => (Category.handvalve, p.1, p.2))

/-- The running maximum of the fuzzy scores over the entries (used to state
what score the fold reports). -/
def scoresMax {α : Type} (tag_lower : String) :
    List (Category × String × α) → ℚ → ℚ
  | [], m => m
  | (_, ref_tag, _) :: rest, m =>
    scoresMax tag_lower rest (max m (similarity tag_lower ref_tag))

/-- `find_best_match` (`s5_classify_tags.py` lines 29-56).  The reference
dictionaries (keys already lowercased by the comprehensions at lines 25-27)
are modelled as association lists iterated in order; the pipeline-tag set is
modelled as a list probed by membership (the Python loop over the set only
tests equality).  A non-string tag is `none`; scores are exact rationals. -/
def find_best_match {α : Type} (pipelineTags : List String)
    (equipment_tags instrument_tags handvalve_tags : List (String × α))
    (threshold : ℚ) (tag : Option String) : MatchResult α :=
  match tag with
  | none => ⟨Category.node, none, 0⟩
  | some t =>
    if pyStrip t = "" then ⟨Category.node, none, 0⟩
    else
      let tag_lower := pyStrip (pyLowerStr t)
      if t ∈ pipelineTags then ⟨Category.pipeline, none, 1⟩
      else
        let best := bestFold tag_lower
          (allEntries equipment_tags instrument_tags handvalve_tags)
          ⟨Category.node, none, 0⟩
        if threshold ≤ best.score then best
        else ⟨Category.node, none, best.score⟩

/-- One enriched node `{tag, category, details}` of the classified output. -/
structure ClassifiedNode (α : Type) where
  tag : String
  category : Category
  details : Option α
deriving DecidableEq

/-- One pipeline entry of the intermediate artifact consumed by
`classify_tags_preserve_flow` (the JSON written by `save_flows_to_json` and
merged/normalized by `s3`/`s4`). -/
structure PipeInfo where
  pipeline_tag : String
  start : Option String
  end_ : Option String
  complete_flow : List String
  total_connections : Nat
  flow_length : Nat
  all_connections : List Segment
deriving DecidableEq

/-- One pipeline entry of the classified output: `start`/`end` stay as they
were (`Sum.inl`) when absent or falsy, otherwise become enriched nodes;
`complete_flow` and `all_connections` are enriched elementwise. -/
structure PipeInfoOut (α : Type) where
  pipeline_tag : String
  start : Option String ⊕ ClassifiedNode α
  end_ : Option String ⊕ ClassifiedNode α
  complete_flow : List (ClassifiedNode α)
  total_connections : Nat
  flow_length : Nat
  all_connections : List (ClassifiedNode α × ClassifiedNode α)
deriving DecidableEq

/-- Enrichment of the `start`/`end` fields (`s5_classify_tags.py` lines
66-74): only a present, truthy (non-empty) string is replaced by a
`{tag, category, details}` node. -/
def enrichEnd {α : Type} (fbm : Option String → MatchResult α) :
    Option String → Option String ⊕ ClassifiedNode α
  | none => Sum.inl none
  | some t =>
    if t = "" then Sum.inl (some t)
    else Sum.inr ⟨t, (fbm (some t)).category, (fbm (some t)).details⟩

/-- Enrichment of one pipeline (`s5_classify_tags.py` lines 61-112): the
deep copy with `start`, `end`, `complete_flow` and `all_connections`
replaced by enriched forms and every other field kept verbatim. -/
def classifyPipe {α : Type} (fbm : Option String → MatchResult α)
    (p : PipeInfo) : PipeInfoOut α :=
  { pipeline_tag := p.pipeline_tag
    start := enrichEnd fbm p.start
    end_ := enrichEnd fbm p.end_
    complete_flow := p.complete_flow.map (fun t =>
      ⟨t, (fbm (some t)).category, (fbm (some t)).details⟩)
    total_connections := p.total_connections
    flow_length := p.flow_length
    all_connections := p.all_connections.map (fun c =>
      (⟨c.from_, (fbm (some c.from_)).category, (fbm (some c.from_)).details⟩,
       ⟨c.to_, (fbm (some c.to_)).category, (fbm (some c.to_)).details⟩)) }

/-- The input document: the flows mapping (association list keyed by
pipeline tag) and the three prepared reference dictionaries. -/
structure Document (α : Type) where
  flows : List (String × PipeInfo)
  equipment : List (String × α)
  instrumentation : List (String × α)
  handvalves : List (String × α)
deriving DecidableEq

/-- The classified document: enriched flows plus the reference data retained
unchanged (`final_output` at `s5_classify_tags.py` lines 115-118). -/
structure DocumentOut (α : Type) where
  flows : List (String × PipeInfoOut α)
  equipment : List (String × α)
  instrumentation : List (String × α)
  handvalves : List (String × α)
deriving DecidableEq

/-- `classify_tags_preserve_flow` (`s5_classify_tags.py` lines 8-126):
gather the pipeline tags from the flow keys, resolve with `find_best_match`,
enrich every pipeline entry, and keep `process_data` untouched. -/
def classify_tags_preserve_flow {α : Type} (doc : Document α) (threshold : ℚ) :
    DocumentOut α :=
  let all_pipeline_tags := doc.flows.map Prod.fst
  let fbm := find_best_match all_pipeline_tags doc.equipment doc.instrumentation
    doc.handvalves threshold
  { flows := doc.flows.map (fun p => (p.1, classifyPipe fbm p.2))
    equipment := doc.equipment
    instrumentation := doc.instrumentation
    handvalves := doc.handvalves }

lemma bestFold_score {α : Type} (tag_lower : String) :
    ∀ (entries : List (Category × String × α)) (best : MatchResult α),
      (bestFold tag_lower entries best).score = scoresMax tag_lower entries best.score := by
  intro entries
  induction entries with
  | nil => intro best; rfl
  | cons e rest ih =>
    intro best
    obtain ⟨cat, ref_tag, details⟩ := e
    rw [bestFold, scoresMax]
    by_cases h : best.score < similarity tag_lower ref_tag
    · rw [if_pos h, ih]
      congr 1
      exact (max_eq_right (le_of_lt h)).symm
    · rw [if_neg h, ih]
      congr 1
      exact (max_eq_left (not_lt.mp h)).symm

/-- C2 counterexample: a tag that is exactly equal to a pipeline key but
consists only of whitespace is caught by the blank-tag guard first
(`s5_classify_tags.py` line 31) and resolves to `node` with score `0`, not
to `pipeline` with score `1`. -/
theorem pipeline_exact_match_counterexample :
    find_best_match (α := Unit) [" "] [] [] [] (3 / 5) (some " ") =
      ⟨Category.node, none, 0⟩ ∧
    (⟨Category.node, none, 0⟩ : MatchResult Unit) ≠ ⟨Category.pipeline, none, 1⟩ := by
  constructor
  · rfl
  · intro h
    cases h

/-- C2 amended: for every non-blank tag string exactly equal (case-sensitive,
unnormalized) to some pipeline tag, `find_best_match` returns
`{category: pipeline, details: null, score: 1.0}` whatever the three
reference tables and the threshold are — in particular even when a reference
record would score above the threshold, since the return happens before any
fuzzy comparison. -/
theorem pipeline_exact_match_short_circuits {α : Type}
    (pipelineTags : List String)
    (equipment_tags instrument_tags handvalve_tags : List (String × α))
    (threshold : ℚ) (t : String)
    (hblank : pyStrip t ≠ "") (hmem : t ∈ pipelineTags) :
    find_best_match pipelineTags equipment_tags instrument_tags handvalve_tags
      threshold (some t) = ⟨Category.pipeline, none, 1⟩ := by
  unfold find_best_match
  dsimp only
  rw [if_neg hblank]
  exact if_pos hmem

theorem pipeline_exact_match_short_circuits_witness :
    pyStrip "P-100" ≠ "" ∧ "P-100" ∈ ["P-100"] ∧
    find_best_match ["P-100"] [("p100", ())] [] [] (3 / 5) (some "P-100") =
      ⟨Category.pipeline, none, 1⟩ :=
  ⟨by decide, by decide,
    pipeline_exact_match_short_circuits ["P-100"] [("p100", ())] [] [] (3 / 5)
      "P-100" (by decide) (by decide)⟩

/-- C4: `find_best_match` returns `{category: node, details: null, score: 0}`
on a non-string or blank tag, and when the best fuzzy score over the three
reference tables stays strictly below the threshold it returns
`{category: node, details: null}` carrying that same best score. -/
theorem resolver_rejects_with_reported_score {α : Type}
    (pipelineTags : List String)
    (equipment_tags instrument_tags handvalve_tags : List (String × α))
    (threshold : ℚ) (t : String)
    (hblank : pyStrip t ≠ "") (hpipe : t ∉ pipelineTags)
    (hbelow : scoresMax (pyStrip (pyLowerStr t))
      (allEntries equipment_tags instrument_tags handvalve_tags) 0 < threshold) :
    (find_best_match pipelineTags equipment_tags instrument_tags handvalve_tags
      threshold none = ⟨Category.node, none, 0⟩) ∧
    (∀ s : String, pyStrip s = "" →
      find_best_match pipelineTags equipment_tags instrument_tags handvalve_tags
        threshold (some s) = ⟨Category.node, none, 0⟩) ∧
    (find_best_match pipelineTags equipment_tags instrument_tags handvalve_tags
      threshold (some t) =
      ⟨Category.node, none, scoresMax (pyStrip (pyLowerStr t))
        (allEntries equipment_tags instrument_tags handvalve_tags) 0⟩) := by
  refine ⟨rfl, ?_, ?_⟩
  · intro s hs
    unfold find_best_match
    dsimp only
    rw [if_pos hs]
  · have hscore := bestFold_score (pyStrip (pyLowerStr t))
      (allEntries equipment_tags instrument_tags handvalve_tags)
      (⟨Category.node, none, 0⟩ : MatchResult α)
    unfold find_best_match
    dsimp only
    rw [if_neg hblank, if_neg hpipe, if_neg (by rw [hscore]; exact not_le.mpr hbelow),
      hscore]

theorem resolver_rejects_with_reported_score_witness :
    pyStrip "xy" ≠ "" ∧ ("xy" ∉ ([] : List String)) ∧
    scoresMax (pyStrip (pyLowerStr "xy"))
      (allEntries (α := Unit) [] [] []) 0 < 3 / 5 ∧
    find_best_match (α := Unit) [] [] [] [] (3 / 5) (some "xy") =
      ⟨Category.node, none, scoresMax (pyStrip (pyLowerStr "xy"))
        (allEntries (α := Unit) [] [] []) 0⟩ :=
  ⟨by decide, by decide, by norm_num [scoresMax, allEntries],
    (resolver_rejects_with_reported_score (α := Unit) [] [] [] [] (3 / 5) "xy"
      (by decide) (by decide) (by norm_num [scoresMax, allEntries])).2.2⟩

/-- C7: the Flow Classifier is a 1:1 enrichment: the classified document's
pipeline keys equal the input keys verbatim, each pipeline's enriched
`complete_flow` has exactly the input's length and order with each element's
`tag` field equal to the original label, and the whole classified flows list
is the elementwise image of the input. -/
theorem classifier_preserves_flow {α : Type} (doc : Document α) (threshold : ℚ) :
    ((classify_tags_preserve_flow doc threshold).flows.map Prod.fst =
      doc.flows.map Prod.fst) ∧
    (∀ (fbm : Option String → MatchResult α) (p : PipeInfo),
      (classifyPipe fbm p).complete_flow.map ClassifiedNode.tag = p.complete_flow ∧
      (classifyPipe fbm p).complete_flow.length = p.complete_flow.length) ∧
    ((classify_tags_preserve_flow doc threshold).flows =
      doc.flows.map (fun p => (p.1, classifyPipe
        (find_best_match (doc.flows.map Prod.fst) doc.equipment doc.instrumentation
          doc.handvalves threshold) p.2))) := by
  refine ⟨?_, ?_, rfl⟩
  · show (doc.flows.map _).map Prod.fst = doc.flows.map Prod.fst
    rw [List.map_map]
    rfl
  · intro fbm p
    constructor
    · show (p.complete_flow.map _).map ClassifiedNode.tag = p.complete_flow
      rw [List.map_map]
      exact List.map_id _
    · exact List.length_map _ _

/-- C9: the embedded classification pipeline is deterministic: running the
Flow Classifier twice on the same document and threshold gives the same
output, and running the Flow Builder twice on the same segment list gives
the same sequence. -/
theorem pipeline_deterministic :
    (∀ (α : Type) (doc : Document α) (threshold : ℚ),
      classify_tags_preserve_flow doc threshold =
        classify_tags_preserve_flow doc threshold) ∧
    (∀ connections : List Segment,
      build_flow_by_following_sequence connections =
        build_flow_by_following_sequence connections) :=
  ⟨fun _ _ _ => rfl, fun _ => rfl⟩

end Hezop
